import Mathlib

/-!
Verification of the Pyphen hyphenation library (`pyphen/__init__.py`).

The development shallowly embeds the library: Python strings are `List Char`,
byte strings are `List Nat`, Python `dict`s are association lists with
overwrite-on-insert, and the two process-wide caches are threaded explicitly
as state.  Machine integers are `Int`/`Nat` (Python ints are unbounded, so no
wrap-around modelling is needed).  Fallible code returns `Except`/`Option`.
-/

/-- Nonstandard-hyphenation payload attached to a break weight or break
position: `(change, index, cut)` exactly as in `AlternativeParser`/`DataInt`. -/
structure NonstdChange where
  change : List Char
  index : Int
  cut : Int
deriving DecidableEq

/-- Embedding of the `DataInt` class: an integer with an optional
`NonstdChange` stuck to it.  A plain Python `int` appearing where a `DataInt`
is expected is modelled as `data = none`. -/
structure DataInt where
  value : Int
  data : Option NonstdChange
deriving DecidableEq

instance : Inhabited DataInt := ⟨⟨0, none⟩⟩

instance {ε α : Type} [DecidableEq ε] [DecidableEq α] : DecidableEq (Except ε α)
  | .error e, .error f => decidable_of_iff (e = f) (by simp)
  | .error _, .ok _ => .isFalse (fun h => Except.noConfusion h)
  | .ok _, .error _ => .isFalse (fun h => Except.noConfusion h)
  | .ok x, .ok y => decidable_of_iff (x = y) (by simp)

/-- Python `dict` lookup (`d.get(k)`) on an association-list model. -/
def dictGet {κ α : Type} [DecidableEq κ] (d : List (κ × α)) (k : κ) : Option α :=
  (d.find? (fun p => decide (p.1 = k))).map (fun p => p.2)

/-- Python `dict` store (`d[k] = v`): the new binding replaces any old binding
of the same key. -/
def dictInsert {κ α : Type} [DecidableEq κ] (d : List (κ × α)) (k : κ) (v : α) :
    List (κ × α) :=
  (k, v) :: d.filter (fun p => decide (¬ p.1 = k))

/-- Effective index of a Python sequence index `i` (possibly negative) into a
sequence of length `n`, with the clamping used by slices and `list.insert`. -/
def pyIdx (n : Nat) (i : Int) : Nat :=
  if i < 0 then (max 0 ((n : Int) + i)).toNat else (min i (n : Int)).toNat

/-- Python slice `l[:i]`. -/
def pyTake {α : Type} (l : List α) (i : Int) : List α := l.take (pyIdx l.length i)

/-- Python slice `l[i:]`. -/
def pyDrop {α : Type} (l : List α) (i : Int) : List α := l.drop (pyIdx l.length i)

/-- Python `list.insert(i, x)` (clamping semantics). -/
def pyInsert {α : Type} (l : List α) (i : Int) (x : α) : List α :=
  l.take (pyIdx l.length i) ++ x :: l.drop (pyIdx l.length i)

/-- Python slice assignment `l[i:j] = repl`. -/
def pySliceAssign {α : Type} (l : List α) (i j : Int) (repl : List α) : List α :=
  l.take (pyIdx l.length i) ++ repl ++ l.drop (max (pyIdx l.length i) (pyIdx l.length j))

/-- Python `str.isupper()` (ASCII model: at least one cased character and no
lowercase one). -/
def pyIsUpper (w : List Char) : Bool :=
  w.any (fun c => c.isUpper || c.isLower) && w.all (fun c => !c.isLower)

/-- Embedding of `re.compile(r'(\d?)(\D?)').findall(pattern)`: scanning left
to right, each match takes an optional digit followed by an optional
non-digit, and a final empty match is produced at the end of the string. -/
def pyFindall : List Char → List (Option Char × Option Char)
  | [] => [(none, none)]
  | [c] =>
    if c.isDigit then [(some c, none), (none, none)]
    else [(none, some c), (none, none)]
  | c :: d :: rest2 =>
    if c.isDigit then
      if d.isDigit then (some c, none) :: pyFindall (d :: rest2)
      else (some c, some d) :: pyFindall rest2
    else (none, some c) :: pyFindall (d :: rest2)

/-- Value of one lowercase-hex digit, as accepted by `r'[0-9a-f]'`. -/
def hexDigitVal (c : Char) : Option Nat :=
  if '0' ≤ c ∧ c ≤ '9' then some (c.toNat - 48)
  else if 'a' ≤ c ∧ c ≤ 'f' then some (c.toNat - 87)
  else none

/-- Embedding of `parse_hex`, i.e. `re.compile(r'\^{2}([0-9a-f]{2})').sub`
replacing each `^^hh` with the character of that code point. -/
def parseHexSubGo : Nat → List Char → List Char
  | 0, l => l
  | _ + 1, [] => []
  | fuel + 1, '^' :: '^' :: h1 :: h2 :: rest =>
    match hexDigitVal h1, hexDigitVal h2 with
    | some a, some b => Char.ofNat (16 * a + b) :: parseHexSubGo fuel rest
    | _, _ => '^' :: parseHexSubGo fuel ('^' :: h1 :: h2 :: rest)
  | fuel + 1, c :: rest => c :: parseHexSubGo fuel rest

/-- Embedding of `parse_hex` proper: the fuel (the length of the input, an
upper bound on the number of scan steps, each of which consumes at least one
character) only serves structural termination. -/
def parseHexSub (l : List Char) : List Char := parseHexSubGo l.length l

/-- Digits of a decimal literal, accumulated. -/
def digitsToNat : List Char → Nat → Nat
  | [], acc => acc
  | c :: rest, acc => digitsToNat rest (acc * 10 + (c.toNat - 48))

/-- Python `int(s)` on a signed decimal literal (`none` models `ValueError`). -/
def pyInt? (s : List Char) : Option Int :=
  match s with
  | '-' :: rest =>
    if rest ≠ [] ∧ rest.all Char.isDigit then some (-(digitsToNat rest 0 : Int)) else none
  | '+' :: rest =>
    if rest ≠ [] ∧ rest.all Char.isDigit then some ((digitsToNat rest 0 : Int)) else none
  | _ => if s ≠ [] ∧ s.all Char.isDigit then some ((digitsToNat s 0 : Int)) else none

/-- Python `int(i or '0')` where `i` is the optional digit group of a token. -/
def digitVal (d : Option Char) : Int :=
  match d with
  | some c => ((c.toNat - 48 : Nat) : Int)
  | none => 0

/-- Python `str.split(sep)` for a one-character separator. -/
def splitOnChar (sep : Char) : List Char → List (List Char)
  | [] => [[]]
  | c :: rest =>
    if c = sep then [] :: splitOnChar sep rest
    else
      match splitOnChar sep rest with
      | [] => [[c]]
      | f :: fs => (c :: f) :: fs

/-- The per-line weight factory: either plain `int`, or an
`AlternativeParser(pattern, alternative)` carrying `(change, index, cut)`. -/
inductive WeightFactory where
  | plain : WeightFactory
  | alt : List Char → Int → Int → WeightFactory
deriving DecidableEq

/-- Plain `int` factory applied to the digit groups of all tokens. -/
def plainValues (digits : List (Option Char)) : List DataInt :=
  digits.map (fun d => ⟨digitVal d, none⟩)

/-- Stateful `AlternativeParser.__call__` applied to the digit groups of all
tokens in order: the index is decremented before each use, and odd values get
the `(change, index, cut)` data attached. -/
def altValues (change : List Char) (cut : Int) : Int → List (Option Char) → List DataInt
  | _, [] => []
  | idx, d :: rest =>
    let idx2 := idx - 1
    let v := digitVal d
    (if v % 2 = 1 then (⟨v, some ⟨change, idx2, cut⟩⟩ : DataInt) else (⟨v, none⟩ : DataInt)) ::
      altValues change cut idx2 rest

/-- Apply the line's factory to the digit groups of its tokens. -/
def factoryValues : WeightFactory → List (Option Char) → List DataInt
  | .plain, ds => plainValues ds
  | .alt change idx cut, ds => altValues change cut idx ds

/-- The pattern table: letters-only key to `(start_offset, trimmed weights)`. -/
abbrev PatTable := List (List Char × (Nat × List DataInt))

/-- Python `max(values)` over the numeric values of a nonempty weight list. -/
def valuesMax (vals : List DataInt) : Int :=
  (vals.map (fun v => v.value)).foldl max ((vals.map (fun v => v.value)).headD 0)

/-- Final value of `start` after `while not values[start]: start += 1`: the
number of leading zero weights. -/
def leadingZeros (values : List DataInt) : Nat :=
  (values.takeWhile (fun v => decide (v.value = 0))).length

/-- Number of trailing zero weights chopped by
`while not values[end - 1]: end -= 1` (i.e. `len(values) - end`). -/
def trailingZeros (values : List DataInt) : Nat :=
  (values.reverse.takeWhile (fun v => decide (v.value = 0))).length

/-- The slice `values[start:end]` after both chopping loops. -/
def trimmedWeights (values : List DataInt) : List DataInt :=
  (values.take (values.length - trailingZeros values)).drop (leadingZeros values)

/-- Tail of `HyphDict.__init__`'s per-line processing: skip all-zero weights,
otherwise chop zero weights from beginning and end, remember the leading-chop
count as the start offset, and store under the letters-only key. -/
def storePattern (patterns : PatTable) (key : List Char) (values : List DataInt) : PatTable :=
  if valuesMax values = 0 then patterns
  else dictInsert patterns key (leadingZeros values, trimmedWeights values)

/-- Abstraction of the exceptions `HyphDict.__init__` can surface: the spec
groups the decode failures and the empty-table failure as `FormatError`;
`otherError` stands for the `IndexError`/`ValueError` a malformed
nonstandard-alternative spec would raise. -/
inductive FormatError where
  | charsetError
  | lineDecodeError
  | emptyTableError
  | otherError
deriving DecidableEq

/-- ASCII whitespace characters removed by `str.strip()`. -/
def isWsChar (c : Char) : Bool :=
  c = ' ' || c = '\t' || c = '\n' || c = '\r' || c = '\x0b' || c = '\x0c'

/-- Python `str.strip()` (ASCII-whitespace model). -/
def stripChars (s : List Char) : List Char :=
  ((s.dropWhile isWsChar).reverse.dropWhile isWsChar).reverse

def kwPercent : List Char := [ '%' ]

def kwHash : List Char := [ '#' ]

def kwLeftMin : List Char := "LEFTHYPHENMIN".toList

def kwRightMin : List Char := "RIGHTHYPHENMIN".toList

def kwCompoundLeftMin : List Char := "COMPOUNDLEFTHYPHENMIN".toList

def kwCompoundRightMin : List Char := "COMPOUNDRIGHTHYPHENMIN".toList

/-- Condition under which `HyphDict.__init__` skips a stripped line: empty, or
starting with a comment marker or one of the margin-hint directives. -/
def lineSkipped (s : List Char) : Bool :=
  s.isEmpty || kwPercent.isPrefixOf s || kwHash.isPrefixOf s ||
    kwLeftMin.isPrefixOf s || kwRightMin.isPrefixOf s ||
    kwCompoundLeftMin.isPrefixOf s || kwCompoundRightMin.isPrefixOf s

/-- Split a pattern line into pattern text and weight factory: if the line
contains both `/` and `=`, split on the first `/` and read the 3-field
`change,index,cut` alternative (adjusting the index by one when the pattern
starts with the boundary dot); otherwise the factory is plain `int`. -/
def mkFactory (p1 : List Char) : Except FormatError (List Char × WeightFactory) :=
  if ('/' ∈ p1) ∧ ('=' ∈ p1) then
    let pat := p1.takeWhile (fun c => decide (¬ c = '/'))
    let alternative := (p1.dropWhile (fun c => decide (¬ c = '/'))).drop 1
    match splitOnChar ',' alternative with
    | change :: f1 :: f2 :: _ =>
      match pyInt? f1, pyInt? f2 with
      | some idx, some cut =>
        .ok (pat, .alt change (idx + (if List.isPrefixOf [ '.' ] pat then 1 else 0)) cut)
      | _, _ => .error .otherError
    | _ => .error .otherError
  else .ok (p1, .plain)

/-- Process one non-skipped pattern line: hex-unescape, choose the factory,
tokenize, build the letters-only key and the weights, and store. -/
def processPattern (patterns : PatTable) (line : List Char) : Except FormatError PatTable :=
  let p0 := parseHexSub line
  match mkFactory p0 with
  | .error e => .error e
  | .ok (pat, factory) =>
    let tokens := pyFindall pat
    let key := tokens.filterMap (fun t => t.2)
    let values := factoryValues factory (tokens.map (fun t => t.1))
    .ok (storePattern patterns key values)

/-- The loop of `HyphDict.__init__` over the pattern lines; `decode charset`
models `bytes.decode(charset)` and a `none` result models the
`UnicodeDecodeError` the spec surfaces as `FormatError`. -/
def processLines (decode : List Char → List Nat → Option (List Char)) (charset : List Char) :
    List (List Nat) → PatTable → Except FormatError PatTable
  | [], patterns => .ok patterns
  | bs :: rest, patterns =>
    match decode charset bs with
    | none => .error .lineDecodeError
    | some s =>
      let line := stripChars s
      if lineSkipped line then processLines decode charset rest patterns
      else
        match processPattern patterns line with
        | .error e => .error e
        | .ok patterns2 => processLines decode charset rest patterns2

/-- ASCII whitespace bytes removed by `bytes.strip()`. -/
def isWsByte (b : Nat) : Bool :=
  b = 32 || b = 9 || b = 10 || b = 13 || b = 11 || b = 12

/-- Python `bytes.strip()`. -/
def stripBytes (bs : List Nat) : List Nat :=
  ((bs.dropWhile isWsByte).reverse.dropWhile isWsByte).reverse

/-- Python `bytes.decode('ascii')`: succeeds exactly on bytes below 128. -/
def asciiDecode (bs : List Nat) : Option (List Char) :=
  if bs.all (fun b => b < 128) then some (bs.map (fun b => Char.ofNat b)) else none

def csMicrosoft : List Char := "microsoft-cp1251".toList

def csCp1251 : List Char := "cp1251".toList

/-- The one charset alias applied by `HyphDict.__init__`. -/
def aliasCharset (cs : List Char) : List Char :=
  if cs.map Char.toLower = csMicrosoft then csCp1251 else cs

/-- Charset declared by the first line of the file:
`stream.readline().strip().decode('ascii')` plus the alias. -/
def charsetOf (fileLines : List (List Nat)) : Option (List Char) :=
  (asciiDecode (stripBytes (fileLines.headD []))).map aliasCharset

/-- Python `max(len(key) for key in patterns)` (the all-zero-length case
coincides because key lengths are nonnegative). -/
def maxKeyLen (patterns : PatTable) : Nat :=
  (patterns.map (fun p => p.1.length)).foldl max 0

/-- The parsed hyphenation dictionary (`HyphDict` minus its mutable word
cache, which is threaded explicitly where needed). -/
structure HyphDict where
  patterns : PatTable
  maxlen : Nat
deriving DecidableEq

/-- Embedding of `HyphDict.__init__` on the list of lines of the file (the
first line is the charset line, the rest are pattern lines). -/
def hyphDictNew (decode : List Char → List Nat → Option (List Char))
    (fileLines : List (List Nat)) : Except FormatError HyphDict :=
  match charsetOf fileLines with
  | none => .error .charsetError
  | some charset =>
    match processLines decode charset fileLines.tail [] with
    | .error e => .error e
    | .ok patterns =>
      if patterns.isEmpty then .error .emptyTableError
      else .ok ⟨patterns, maxKeyLen patterns⟩

/-- Python `max(values[k], references[i + offset + k])`: the first argument
wins ties. -/
def pyMaxD (a b : DataInt) : DataInt := if a.value < b.value then b else a

/-- The slice assignment `references[slice_] = map(max, values, references[slice_])`
restricted to the tail of the accumulator starting at the slice: `map` stops
at the shorter sequence, which models Python's clamping of the slice. -/
def overlayVals : List DataInt → List DataInt → List DataInt
  | refs, [] => refs
  | [], _ => []
  | r :: refs, v :: vals => pyMaxD v r :: overlayVals refs vals

/-- Overlay a matched pattern's weights onto the accumulator starting at
`pos = i + offset`. -/
def overlayAt (refs : List DataInt) (pos : Nat) (vals : List DataInt) : List DataInt :=
  refs.take pos ++ overlayVals (refs.drop pos) vals

/-- One iteration of the inner loop of `HyphDict.positions`: look up
`pointed_word[i:j]` and, when present, overlay its weights. -/
def scanStep (patterns : PatTable) (pointed : List Char) (refs : List DataInt)
    (ij : Nat × Nat) : List DataInt :=
  match dictGet patterns ((pointed.drop ij.1).take (ij.2 - ij.1)) with
  | some (off, vals) => overlayAt refs (ij.1 + off) vals
  | none => refs

/-- The index pairs scanned by the two nested loops of `HyphDict.positions`:
`i in range(len(pointed_word) - 1)` and
`j in range(i + 1, min(i + maxlen, len(pointed_word)) + 1)`. -/
def allIJ (n maxlen : Nat) : List (Nat × Nat) :=
  (List.range (n - 1)).flatMap
    (fun i => (List.range' (i + 1) (min (i + maxlen) n - i)).map (fun j => (i, j)))

/-- Run the scan over a given sequence of index pairs. -/
def scanAll (patterns : PatTable) (pointed : List Char) (ijs : List (Nat × Nat))
    (refs : List DataInt) : List DataInt :=
  ijs.foldl (scanStep patterns pointed) refs

/-- Embedding of the comprehension
`[DataInt(i - 1, reference=reference) for i, reference in enumerate(references) if reference % 2]`. -/
def collectPointsAux : Nat → List DataInt → List DataInt
  | _, [] => []
  | i, r :: rest =>
    (if r.value % 2 = 0 then [] else [(⟨(i : Int) - 1, r.data⟩ : DataInt)]) ++
      collectPointsAux (i + 1) rest

/-- Core of `HyphDict.positions` on an already-lowercased word: wrap in dots,
accumulate the overlay, and collect the odd positions. -/
def findPoints (hd : HyphDict) (lowered : List Char) : List DataInt :=
  let pointed := '.' :: lowered ++ [ '.' ]
  collectPointsAux 0
    (scanAll hd.patterns pointed (allIJ pointed.length hd.maxlen)
      (List.replicate (pointed.length + 1) (⟨0, none⟩ : DataInt)))

/-- `HyphDict.positions` as the pure function of table and word it computes
(the memoization is modelled separately by `HyphDict.positionsCached`). -/
def HyphDict.positionsList (hd : HyphDict) (word : List Char) : List DataInt :=
  findPoints hd (word.map Char.toLower)

/-- The per-dictionary word cache `self.cache`. -/
abbrev PosCache := List (List Char × List DataInt)

/-- `HyphDict.positions` with its cache threaded explicitly: on a hit the
stored list is returned unchanged, on a miss the freshly computed list is
stored under the lowercased word. -/
def HyphDict.positionsCached (hd : HyphDict) (cache : PosCache) (word : List Char) :
    List DataInt × PosCache :=
  let w := word.map Char.toLower
  match dictGet cache w with
  | some points => (points, cache)
  | none =>
    let points := findPoints hd w
    (points, dictInsert cache w points)

/-- A `Pyphen` instance whose dictionary attribute is set. -/
structure Pyphen where
  left : Int
  right : Int
  hd : HyphDict

/-- `Pyphen.positions`: the dictionary positions filtered by the margins. -/
def Pyphen.positions (P : Pyphen) (word : List Char) : List DataInt :=
  let right := (word.length : Int) - P.right
  (P.hd.positionsList word).filter (fun i => decide (P.left ≤ i.value ∧ i.value ≤ right))

/-- One yielded pair of `Pyphen.iterate` for a given break position.  Python
unpacks `change.split('=')` into exactly two pieces (raising on malformed
data); dictionary data always contains exactly one equals sign, and the
embedding takes the first two pieces. -/
def splitPair (word : List Char) (position : DataInt) : List Char × List Char :=
  match position.data with
  | none => (pyTake word position.value, pyDrop word position.value)
  | some ch =>
    let index := ch.index + position.value
    let change := if pyIsUpper word then ch.change.map Char.toUpper else ch.change
    let parts := splitOnChar '=' change
    (pyTake word index ++ parts.headD [], (parts.drop 1).headD [] ++ pyDrop word (index + ch.cut))

/-- `Pyphen.iterate`: the finite sequence the generator yields, positions
consumed in reversed (descending) order. -/
def Pyphen.iterate (P : Pyphen) (word : List Char) : List (List Char × List Char) :=
  ((P.positions word).reverse).map (splitPair word)

/-- The loop of `Pyphen.wrap` over the iterated pairs. -/
def wrapGo (width : Int) (hyphen : List Char) :
    List (List Char × List Char) → Option (List Char × List Char)
  | [] => none
  | (w1, w2) :: rest =>
    if (w1.length : Int) ≤ width then some (w1 ++ hyphen, w2) else wrapGo width hyphen rest

/-- `Pyphen.wrap`: first (longest-head) split fitting the width, hyphen
attached; `none` models Python's implicit `return None`. -/
def Pyphen.wrap (P : Pyphen) (word : List Char) (width : Int) (hyphen : List Char) :
    Option (List Char × List Char) :=
  wrapGo (width - (hyphen.length : Int)) hyphen (P.iterate word)

/-- Python `change.replace('=', hyphen)`. -/
def replaceEq (change hyphen : List Char) : List Char :=
  change.flatMap (fun c => if c = '=' then hyphen else [c])

/-- One step of the loop of `Pyphen.inserted`, on the word as a list of string
fragments (`list(word)` is the list of its one-character strings; the plain
branch inserts the hyphen string as one element, the nonstandard branch
slice-assigns the character list of the adjusted change text). -/
def insertedStep (word hyphen : List Char) (wl : List (List Char)) (position : DataInt) :
    List (List Char) :=
  match position.data with
  | some ch =>
    let index := ch.index + position.value
    let change := if pyIsUpper word then ch.change.map Char.toUpper else ch.change
    pySliceAssign wl index (index + ch.cut) ((replaceEq change hyphen).map (fun c => [c]))
  | none => pyInsert wl position.value hyphen

/-- `Pyphen.inserted`: process break positions from rightmost to leftmost,
then join. -/
def Pyphen.inserted (P : Pyphen) (word hyphen : List Char) : List Char :=
  (((P.positions word).reverse).foldl (insertedStep word hyphen)
    (word.map (fun c => [c]))).flatten

/-- Exceptions surfaced by `Pyphen.__init__` and by method calls on an
instance without a dictionary attribute. -/
inductive PyError where
  | attributeError
  | keyError
deriving DecidableEq

/-- A `Pyphen` object as constructed by `Pyphen.__init__`: the `hd` attribute
may be left unset, modelled by `Option`. -/
structure PyphenObj where
  left : Int
  right : Int
  hd : Option HyphDict

/-- Python truthiness of an optional string argument (absent or empty is
falsy). -/
def pyTruthy (s : Option String) : Bool :=
  match s with
  | none => false
  | some str => decide (¬ str = "")

/-- The truncation loop of `language_fallback` (`none` models `KeyError`). -/
def languageFallback (langs : List (String × String)) : List String → Option String
  | [] => none
  | p :: parts =>
    let language := String.intercalate "_" (p :: parts)
    if (dictGet langs language).isSome then some language
    else languageFallback langs (p :: parts).dropLast
termination_by parts => parts.length
decreasing_by
  simp only [List.length_dropLast, List.length_cons]
  omega

/-- `language_fallback(language)` with the `LANGUAGES` table passed
explicitly. -/
def languageFallbackFull (langs : List (String × String)) (language : String) : Option String :=
  languageFallback langs ((String.replace language "-" "_").splitOn "_")

/-- Embedding of `Pyphen.__init__` with the module state made explicit: the
`LANGUAGES` table, the construction of a `HyphDict` from a file, and the
module-level `hdcache` (threaded in and out). -/
def pyphenNew (langs : List (String × String)) (mkDict : String → HyphDict)
    (hdcache : List (String × HyphDict)) (filename0 lang : Option String)
    (left right : Int) (cache : Bool) :
    Except PyError (PyphenObj × List (String × HyphDict)) :=
  let resolved : Except PyError (Option String) :=
    if (!pyTruthy filename0) && pyTruthy lang then
      match languageFallbackFull langs (lang.getD "") with
      | none => .error .keyError
      | some l =>
        match dictGet langs l with
        | none => .error .keyError
        | some f => .ok (some f)
    else .ok filename0
  match resolved with
  | .error e => .error e
  | .ok filename =>
    if pyTruthy filename then
      let f := filename.getD ""
      let hdcache2 :=
        if (!cache) || (dictGet hdcache f).isNone then dictInsert hdcache f (mkDict f)
        else hdcache
      match dictGet hdcache2 f with
      | none => .error .keyError
      | some d => .ok (⟨left, right, some d⟩, hdcache2)
    else .ok (⟨left, right, none⟩, hdcache)

/-- `Pyphen.positions` on an object whose `hd` attribute may be unset:
touching `self.hd` on such an instance raises `AttributeError`. -/
def PyphenObj.positionsE (P : PyphenObj) (word : List Char) : Except PyError (List DataInt) :=
  match P.hd with
  | none => .error .attributeError
  | some d => .ok (Pyphen.positions ⟨P.left, P.right, d⟩ word)

/-- `Pyphen.iterate` on a `PyphenObj` (the generator's first step evaluates
`self.positions`, hence `self.hd`). -/
def PyphenObj.iterateE (P : PyphenObj) (word : List Char) :
    Except PyError (List (List Char × List Char)) :=
  match P.hd with
  | none => .error .attributeError
  | some d => .ok (Pyphen.iterate ⟨P.left, P.right, d⟩ word)

/-- `Pyphen.wrap` on a `PyphenObj`. -/
def PyphenObj.wrapE (P : PyphenObj) (word : List Char) (width : Int) (hyphen : List Char) :
    Except PyError (Option (List Char × List Char)) :=
  match P.hd with
  | none => .error .attributeError
  | some d => .ok (Pyphen.wrap ⟨P.left, P.right, d⟩ word width hyphen)

/-- `Pyphen.inserted` on a `PyphenObj`. -/
def PyphenObj.insertedE (P : PyphenObj) (word hyphen : List Char) :
    Except PyError (List Char) :=
  match P.hd with
  | none => .error .attributeError
  | some d => .ok (Pyphen.inserted ⟨P.left, P.right, d⟩ word hyphen)

/-- A pattern table (and hence dictionary) without nonstandard entries: no
stored weight carries change data. -/
def noNonstd (hd : HyphDict) : Prop :=
  ∀ kv ∈ hd.patterns, ∀ v ∈ kv.2.2, v.data = none

instance (hd : HyphDict) : Decidable (noNonstd hd) := by
  unfold noNonstd; infer_instance

/-- Stated from the spec, for comparison with `Pyphen.inserted`: the fragments
of the word cut at the ascending break positions `ps` (with `prev` the
previous cut point, initially 0). -/
def specFragments (word : List Char) (prev : Nat) : List Nat → List (List Char)
  | [] => [word.drop prev]
  | p :: ps => (word.drop prev).take (p - prev) :: specFragments word p ps

/-- Join string fragments with the hyphen between consecutive fragments. -/
def joinSep (hyphen : List Char) : List (List Char) → List Char
  | [] => []
  | [f] => f
  | f :: fs => f ++ hyphen ++ joinSep hyphen fs

/-- Stated from the spec, for comparison with `Pyphen.inserted`: the word with
the hyphen inserted simultaneously at each break position of the ascending
list `ps`. -/
def specInserted (word hyphen : List Char) (ps : List Nat) : List Char :=
  joinSep hyphen (specFragments word 0 ps)

/-- Numeric contribution of the scan iteration `ij` to accumulator position
`m`: the weight the matched pattern (if any) writes there. -/
def contribAt (patterns : PatTable) (pointed : List Char) (ij : Nat × Nat) (m : Nat) :
    Option Int :=
  match dictGet patterns ((pointed.drop ij.1).take (ij.2 - ij.1)) with
  | some (off, vals) =>
    if ij.1 + off ≤ m ∧ m - (ij.1 + off) < vals.length then
      some ((vals.getD (m - (ij.1 + off)) default).value)
    else none
  | none => none

/-- Invariant of every stored pattern entry: the trimmed weights are nonempty
(so never all-zero) and start and end with a nonzero weight. -/
def trimmedInvariant (kv : List Char × (Nat × List DataInt)) : Prop :=
  kv.2.2 ≠ [] ∧ (∀ x, kv.2.2.head? = some x → x.value ≠ 0) ∧
    (∀ x, kv.2.2.getLast? = some x → x.value ≠ 0)

/-- A decoder treating every charset as ASCII, for concrete test files. -/
def asciiOnlyDecode : List Char → List Nat → Option (List Char) :=
  fun _ bs => asciiDecode bs

/-- A concrete two-line dictionary file: a charset line and the pattern
`a1b`. -/
def tFile : List (List Nat) :=
  ["ISO8859-1".toList.map Char.toNat, "a1b".toList.map Char.toNat]

/-- A concrete one-pattern dictionary (the parse of the pattern line `a1b`),
used by the concrete instantiations below. -/
def tHd : HyphDict := ⟨[("ab".toList, (1, [⟨1, none⟩]))], 2⟩

/-- A second concrete dictionary, distinct from `tHd`. -/
def tHd2 : HyphDict := ⟨[("cd".toList, (1, [⟨3, none⟩]))], 2⟩

/-- A concrete file whose second line holds a byte no ASCII decoder accepts. -/
def tBadFile : List (List Nat) := ["ISO8859-1".toList.map Char.toNat, [200]]

/-- A concrete table with two overlapping patterns (`a1b` and `3b`). -/
def tPatterns : PatTable :=
  [("ab".toList, (1, [⟨1, none⟩])), ("b".toList, (0, [⟨3, none⟩]))]

/-- The dotted form of the word `ab`. -/
def tPointed : List Char := ".ab.".toList

/-- A fresh accumulator for `tPointed`. -/
def tRefs : List DataInt := List.replicate 5 ⟨0, none⟩

/-- The scan order of `HyphDict.positions` for `tPointed` with `maxlen 2`. -/
def tIJs : List (Nat × Nat) := allIJ 4 2

/-! Helper lemmas about the collected break positions. -/

theorem collectPointsAux_lb (refs : List DataInt) :
    ∀ (i : Nat) (p : DataInt), p ∈ collectPointsAux i refs → (i : Int) - 1 ≤ p.value := by
  induction refs with
  | nil => intro i p hp; simp [collectPointsAux] at hp
  | cons r rest ih =>
    intro i p hp
    simp only [collectPointsAux, List.mem_append] at hp
    rcases hp with hp | hp
    · by_cases h : r.value % 2 = 0 <;> simp [h] at hp
      subst hp; simp
    · have := ih (i + 1) p hp
      push_cast at this ⊢
      omega

theorem collectPointsAux_pairwise (refs : List DataInt) :
    ∀ i : Nat, List.Pairwise (fun a b => a.value < b.value) (collectPointsAux i refs) := by
  induction refs with
  | nil => intro i; simp [collectPointsAux]
  | cons r rest ih =>
    intro i
    simp only [collectPointsAux]
    by_cases h : r.value % 2 = 0
    · simpa [h] using ih (i + 1)
    · simp only [h, if_neg, List.singleton_append]
      refine List.pairwise_cons.mpr ⟨?_, ih (i + 1)⟩
      intro b hb
      have := collectPointsAux_lb rest (i + 1) b hb
      push_cast at this ⊢
      omega

theorem positionsList_pairwise (hd : HyphDict) (word : List Char) :
    List.Pairwise (fun a b => a.value < b.value) (hd.positionsList word) :=
  collectPointsAux_pairwise _ 0

theorem mem_positions (P : Pyphen) (word : List Char) (p : DataInt) :
    p ∈ P.positions word ↔
      p ∈ P.hd.positionsList word ∧
        P.left ≤ p.value ∧ p.value ≤ (word.length : Int) - P.right := by
  unfold Pyphen.positions
  rw [List.mem_filter]
  simp

theorem positions_pairwise (P : Pyphen) (word : List Char) :
    List.Pairwise (fun a b => a.value < b.value) (P.positions word) :=
  List.Pairwise.filter _ (positionsList_pairwise P.hd word)

/-- C2: for every word, every position of `Pyphen.positions` satisfies the
margin constraint `left ≤ p ≤ len(word) - right`; the result is exactly the
dictionary's positions with the out-of-range ones filtered out, and the
surviving sequence is ascending. -/
theorem pyphen_positions_margin_invariant (P : Pyphen) (word : List Char) :
    (∀ p ∈ P.positions word, P.left ≤ p.value ∧ p.value ≤ (word.length : Int) - P.right) ∧
    (∀ p, p ∈ P.positions word ↔
      p ∈ P.hd.positionsList word ∧
        P.left ≤ p.value ∧ p.value ≤ (word.length : Int) - P.right) ∧
    List.Pairwise (fun a b => a.value < b.value) (P.positions word) := by
  refine ⟨?_, mem_positions P word, ?_⟩
  · intro p hp
    exact ((mem_positions P word p).mp hp).2
  · exact positions_pairwise P word

/-- C2 witness: the theorem applied to the concrete instance and word of the
scratch table above, with the statement evaluated. -/
theorem pyphen_positions_margin_invariant_witness :
    (∀ p ∈ Pyphen.positions ⟨1, 1, tHd⟩ "cab".toList, (1 : Int) ≤ p.value ∧
      p.value ≤ (("cab".toList.length : Int)) - 1) ∧
    (∀ p, p ∈ Pyphen.positions ⟨1, 1, tHd⟩ "cab".toList ↔
      p ∈ HyphDict.positionsList tHd "cab".toList ∧
        (1 : Int) ≤ p.value ∧ p.value ≤ (("cab".toList.length : Int)) - 1) ∧
    List.Pairwise (fun a b => a.value < b.value) (Pyphen.positions ⟨1, 1, tHd⟩ "cab".toList) :=
  pyphen_positions_margin_invariant ⟨1, 1, tHd⟩ "cab".toList

/-! Lemmas for the wrap loop. -/

theorem wrapGo_eq_find (width : Int) (hyphen : List Char) :
    ∀ l : List (List Char × List Char),
      wrapGo width hyphen l =
        (l.find? (fun pr => decide ((pr.1.length : Int) ≤ width))).map
          (fun pr => (pr.1 ++ hyphen, pr.2)) := by
  intro l
  induction l with
  | nil => rfl
  | cons pr rest ih =>
    obtain ⟨w1, w2⟩ := pr
    by_cases h : (w1.length : Int) ≤ width
    · simp [wrapGo, h, List.find?]
    · simp only [wrapGo, h, if_neg, List.find?]
      rw [ih]
      simp [h]

/-- C4: `Pyphen.wrap` returns the first iterated (longest-head-first) pair
whose head fits in `width - len(hyphen)`, with the hyphen appended to the
head, and returns `none` when no pair fits or the word has no break positions
at all. -/
theorem pyphen_wrap_characterization (P : Pyphen) (word : List Char) (width : Int)
    (hyphen : List Char) :
    P.wrap word width hyphen =
      ((P.iterate word).find?
          (fun pr => decide ((pr.1.length : Int) ≤ width - (hyphen.length : Int)))).map
        (fun pr => (pr.1 ++ hyphen, pr.2)) ∧
    ((∀ pr ∈ P.iterate word, width - (hyphen.length : Int) < (pr.1.length : Int)) →
      P.wrap word width hyphen = none) ∧
    (P.positions word = [] → P.wrap word width hyphen = none) := by
  refine ⟨wrapGo_eq_find _ _ _, ?_, ?_⟩
  · intro hall
    unfold Pyphen.wrap
    rw [wrapGo_eq_find]
    have hn : (P.iterate word).find?
        (fun pr => decide ((pr.1.length : Int) ≤ width - (hyphen.length : Int))) = none := by
      rw [List.find?_eq_none]
      intro pr hpr
      simpa using not_le.mpr (hall pr hpr)
    rw [hn]
    rfl
  · intro hnone
    unfold Pyphen.wrap Pyphen.iterate
    rw [hnone]
    rfl

/-- C4 witness: on the scratch table with default margins, `"cab"` has no
break position in range and `wrap` returns `none`. -/
theorem pyphen_wrap_characterization_witness :
    Pyphen.wrap ⟨2, 2, tHd⟩ "cab".toList 3 "-".toList = none :=
  (pyphen_wrap_characterization ⟨2, 2, tHd⟩ "cab".toList 3 "-".toList).2.2 (by decide)

/-! Data propagation through the overlay: a table without nonstandard entries
produces only plain break positions. -/

theorem pyMaxD_data_none {a b : DataInt} (ha : a.data = none) (hb : b.data = none) :
    (pyMaxD a b).data = none := by
  unfold pyMaxD; split <;> assumption

theorem overlayVals_data_none :
    ∀ (refs vals : List DataInt), (∀ v ∈ refs, v.data = none) →
      (∀ v ∈ vals, v.data = none) → ∀ v ∈ overlayVals refs vals, v.data = none := by
  intro refs
  induction refs with
  | nil =>
    intro vals _ _ v hv
    cases vals <;> simp [overlayVals] at hv
  | cons r rest ih =>
    intro vals href hvals v hv
    cases vals with
    | nil => exact href v hv
    | cons w ws =>
      simp only [overlayVals, List.mem_cons] at hv
      rcases hv with rfl | hv
      · exact pyMaxD_data_none (hvals w (by simp)) (href r (by simp))
      · exact ih ws (fun x hx => href x (by simp [hx])) (fun x hx => hvals x (by simp [hx])) v hv

theorem dictGet_mem {κ α : Type} [DecidableEq κ] {d : List (κ × α)} {k : κ} {v : α}
    (h : dictGet d k = some v) : (k, v) ∈ d := by
  unfold dictGet at h
  cases hf : d.find? (fun p => decide (p.1 = k)) with
  | none => rw [hf] at h; cases h
  | some q =>
    rw [hf] at h
    have hq : q ∈ d := List.mem_of_find?_eq_some hf
    have hk : q.1 = k := by simpa using List.find?_some hf
    have hv : q.2 = v := by simpa using h
    have : (k, v) = q := by
      obtain ⟨q1, q2⟩ := q
      simp_all
    rwa [this]

theorem scanStep_data_none {patterns : PatTable} {pointed : List Char} {refs : List DataInt}
    {ij : Nat × Nat} (hpat : ∀ kv ∈ patterns, ∀ v ∈ kv.2.2, v.data = none)
    (href : ∀ v ∈ refs, v.data = none) :
    ∀ v ∈ scanStep patterns pointed refs ij, v.data = none := by
  unfold scanStep
  cases hg : dictGet patterns ((pointed.drop ij.1).take (ij.2 - ij.1)) with
  | none => exact href
  | some p =>
    obtain ⟨off, vals⟩ := p
    intro v hv
    unfold overlayAt at hv
    rcases List.mem_append.mp hv with hv | hv
    · exact href v (List.mem_of_mem_take hv)
    · refine overlayVals_data_none _ _ ?_ ?_ v hv
      · exact fun x hx => href x (List.mem_of_mem_drop hx)
      · exact hpat _ (dictGet_mem hg)

theorem scanAll_data_none {patterns : PatTable} {pointed : List Char}
    (hpat : ∀ kv ∈ patterns, ∀ v ∈ kv.2.2, v.data = none) :
    ∀ (ijs : List (Nat × Nat)) (refs : List DataInt), (∀ v ∈ refs, v.data = none) →
      ∀ v ∈ scanAll patterns pointed ijs refs, v.data = none := by
  intro ijs
  induction ijs with
  | nil => intro refs href; exact href
  | cons ij rest ih =>
    intro refs href
    have h1 : scanAll patterns pointed (ij :: rest) refs =
        scanAll patterns pointed rest (scanStep patterns pointed refs ij) := rfl
    rw [h1]
    exact ih _ (scanStep_data_none hpat href)

theorem collectPointsAux_data_none :
    ∀ (refs : List DataInt) (i : Nat), (∀ v ∈ refs, v.data = none) →
      ∀ p ∈ collectPointsAux i refs, p.data = none := by
  intro refs
  induction refs with
  | nil => intro i _ p hp; simp [collectPointsAux] at hp
  | cons r rest ih =>
    intro i href p hp
    simp only [collectPointsAux, List.mem_append] at hp
    rcases hp with hp | hp
    · by_cases h : r.value % 2 = 0 <;> simp [h] at hp
      subst hp
      exact href r (by simp)
    · exact ih (i + 1) (fun x hx => href x (by simp [hx])) p hp

theorem positionsList_data_none (hd : HyphDict) (word : List Char) (h : noNonstd hd) :
    ∀ p ∈ hd.positionsList word, p.data = none := by
  intro p hp
  unfold HyphDict.positionsList findPoints at hp
  refine collectPointsAux_data_none _ 0 ?_ p hp
  refine scanAll_data_none h _ _ ?_
  intro v hv
  rw [List.eq_of_mem_replicate hv]

theorem positions_data_none (P : Pyphen) (word : List Char) (h : noNonstd P.hd) :
    ∀ p ∈ P.positions word, p.data = none := by
  intro p hp
  exact positionsList_data_none P.hd word h p ((mem_positions P word p).mp hp).1

/-! Python slicing at nonnegative indices. -/

theorem pyTake_nonneg {α : Type} (l : List α) {i : Int} (h : 0 ≤ i) :
    pyTake l i = l.take i.toNat := by
  unfold pyTake pyIdx
  rw [if_neg (by omega)]
  rcases le_or_lt i (l.length : Int) with hle | hlt
  · congr 1
    omega
  · have h1 : (min i (l.length : Int)).toNat = l.length := by omega
    rw [h1, List.take_length]
    exact (List.take_of_length_le (by omega)).symm

theorem pyDrop_nonneg {α : Type} (l : List α) {i : Int} (h : 0 ≤ i) :
    pyDrop l i = l.drop i.toNat := by
  unfold pyDrop pyIdx
  rw [if_neg (by omega)]
  rcases le_or_lt i (l.length : Int) with hle | hlt
  · congr 1
    omega
  · have h1 : (min i (l.length : Int)).toNat = l.length := by omega
    rw [h1, List.drop_length]
    exact (List.drop_eq_nil_of_le (by omega)).symm

/-- C5: with nonnegative margins, `Pyphen.iterate` consumes the
margin-filtered positions in descending order — for any table — and every
plain (data-free) position yields the pair `(word[:p], word[p:])`; when the
loaded table contains no nonstandard entries at all, the yielded heads
moreover have strictly decreasing length. -/
theorem pyphen_iterate_plain_splits (P : Pyphen) (word : List Char)
    (hl : 0 ≤ P.left) (hr : 0 ≤ P.right) :
    P.iterate word = (P.positions word).reverse.map (splitPair word) ∧
    List.Pairwise (fun a b => b.value < a.value) ((P.positions word).reverse) ∧
    (∀ p ∈ P.positions word, p.data = none →
      splitPair word p = (word.take p.value.toNat, word.drop p.value.toNat)) ∧
    (noNonstd P.hd →
      P.iterate word =
        (P.positions word).reverse.map
          (fun p => (word.take p.value.toNat, word.drop p.value.toNat)) ∧
      List.Pairwise (fun a b => b.1.length < a.1.length) (P.iterate word)) := by
  have hbounds : ∀ p ∈ P.positions word,
      0 ≤ p.value ∧ p.value ≤ (word.length : Int) := by
    intro p hp
    have h2 := ((mem_positions P word p).mp hp).2
    omega
  have hplain : ∀ p ∈ P.positions word, p.data = none →
      splitPair word p = (word.take p.value.toNat, word.drop p.value.toNat) := by
    intro p hp hdn
    have hb := hbounds p hp
    unfold splitPair
    rw [hdn]
    rw [pyTake_nonneg word hb.1, pyDrop_nonneg word hb.1]
  refine ⟨rfl, ?_, hplain, ?_⟩
  · rw [List.pairwise_reverse]
    exact positions_pairwise P word
  · intro hns
    have heq : P.iterate word =
        (P.positions word).reverse.map
          (fun p => (word.take p.value.toNat, word.drop p.value.toNat)) := by
      unfold Pyphen.iterate
      refine List.map_congr_left ?_
      intro p hp
      have hp2 : p ∈ P.positions word := List.mem_reverse.mp hp
      exact hplain p hp2 (positions_data_none P word hns p hp2)
    refine ⟨heq, ?_⟩
    rw [heq, List.pairwise_map, List.pairwise_reverse]
    have hpw := positions_pairwise P word
    refine List.Pairwise.imp_of_mem ?_ hpw
    intro a b ha hb hab
    have hba := hbounds a ha
    have hbb := hbounds b hb
    simp only [List.length_take]
    omega

/-- C5 witness: the theorem applied to a concrete instance and word; the
table happens to be nonstandard-free, so the final clause is exercised too. -/
theorem pyphen_iterate_plain_splits_witness :
    Pyphen.iterate ⟨1, 1, tHd⟩ "cab".toList =
      (Pyphen.positions ⟨1, 1, tHd⟩ "cab".toList).reverse.map (splitPair "cab".toList) ∧
    List.Pairwise (fun a b => b.value < a.value)
      ((Pyphen.positions ⟨1, 1, tHd⟩ "cab".toList).reverse) ∧
    (∀ p ∈ Pyphen.positions ⟨1, 1, tHd⟩ "cab".toList, p.data = none →
      splitPair "cab".toList p =
        ("cab".toList.take p.value.toNat, "cab".toList.drop p.value.toNat)) ∧
    (noNonstd tHd →
      Pyphen.iterate ⟨1, 1, tHd⟩ "cab".toList =
        (Pyphen.positions ⟨1, 1, tHd⟩ "cab".toList).reverse.map
          (fun p => ("cab".toList.take p.value.toNat, "cab".toList.drop p.value.toNat)) ∧
      List.Pairwise (fun a b => b.1.length < a.1.length)
        (Pyphen.iterate ⟨1, 1, tHd⟩ "cab".toList)) :=
  pyphen_iterate_plain_splits ⟨1, 1, tHd⟩ "cab".toList (by decide) (by decide)

/-! Association-list dictionary lemmas. -/

theorem dictGet_dictInsert {κ α : Type} [DecidableEq κ] (d : List (κ × α)) (k : κ) (v : α) :
    dictGet (dictInsert d k v) k = some v := by
  unfold dictGet dictInsert
  simp

/-- C8: `HyphDict.positions` is a pure function of the pattern table and the
lowercased word — words equal after lowercasing get equal position lists —
and the memoized version returns the identical stored list on a repeated
call, leaving the cache unchanged. -/
theorem hyphdict_positions_pure_and_cached (hd : HyphDict) (w w2 : List Char)
    (cache : PosCache) (h : w.map Char.toLower = w2.map Char.toLower) :
    hd.positionsList w = hd.positionsList w2 ∧
    (hd.positionsCached (hd.positionsCached cache w).2 w).1 =
      (hd.positionsCached cache w).1 ∧
    (hd.positionsCached (hd.positionsCached cache w).2 w).2 =
      (hd.positionsCached cache w).2 ∧
    dictGet (hd.positionsCached cache w).2 (w.map Char.toLower) =
      some (hd.positionsCached cache w).1 := by
  refine ⟨?_, ?_⟩
  · unfold HyphDict.positionsList
    rw [h]
  · unfold HyphDict.positionsCached
    cases hg : dictGet cache (w.map Char.toLower) with
    | some pts => simp [hg]
    | none => simp [hg, dictGet_dictInsert]

/-- C8 witness: two spellings of the same word on the scratch table, starting
from the empty cache. -/
theorem hyphdict_positions_pure_and_cached_witness :
    tHd.positionsList "CaB".toList = tHd.positionsList "cab".toList ∧
    (tHd.positionsCached (tHd.positionsCached [] "CaB".toList).2 "CaB".toList).1 =
      (tHd.positionsCached [] "CaB".toList).1 ∧
    (tHd.positionsCached (tHd.positionsCached [] "CaB".toList).2 "CaB".toList).2 =
      (tHd.positionsCached [] "CaB".toList).2 ∧
    dictGet (tHd.positionsCached [] "CaB".toList).2 ("CaB".toList.map Char.toLower) =
      some (tHd.positionsCached [] "CaB".toList).1 :=
  hyphdict_positions_pure_and_cached tHd "CaB".toList "cab".toList [] (by decide)

/-- C9: a `Pyphen` constructed with neither filename nor language leaves the
`hd` attribute unset and the shared cache untouched, and every query method
on such an instance raises `AttributeError` instead of returning an empty
result. -/
theorem pyphen_init_no_args_no_table (langs : List (String × String))
    (mkDict : String → HyphDict) (hdcache : List (String × HyphDict))
    (left right : Int) (cache : Bool) :
    pyphenNew langs mkDict hdcache none none left right cache =
      .ok (⟨left, right, none⟩, hdcache) ∧
    (∀ word, PyphenObj.positionsE ⟨left, right, none⟩ word = .error .attributeError) ∧
    (∀ word, PyphenObj.iterateE ⟨left, right, none⟩ word = .error .attributeError) ∧
    (∀ word width hyphen,
      PyphenObj.wrapE ⟨left, right, none⟩ word width hyphen = .error .attributeError) ∧
    (∀ word hyphen,
      PyphenObj.insertedE ⟨left, right, none⟩ word hyphen = .error .attributeError) :=
  ⟨rfl, fun _ => rfl, fun _ => rfl, fun _ _ _ => rfl, fun _ _ => rfl⟩

/-- C10: constructing with `cache=False` and a (truthy) filename still builds
a fresh `HyphDict` and stores it into the shared module cache under that
filename, overwriting any existing entry, and the instance's table is the one
read back from the updated shared cache. -/
theorem pyphen_init_cache_false_overwrites (langs : List (String × String))
    (mkDict : String → HyphDict) (hdcache : List (String × HyphDict))
    (lang : Option String) (left right : Int) (f : String) (hf : f ≠ "") :
    pyphenNew langs mkDict hdcache (some f) lang left right false =
      .ok (⟨left, right, some (mkDict f)⟩, dictInsert hdcache f (mkDict f)) ∧
    dictGet (dictInsert hdcache f (mkDict f)) f = some (mkDict f) := by
  constructor
  · unfold pyphenNew
    simp only [pyTruthy, hf, decide_not, Bool.not_eq_true]
    simp [pyTruthy, hf, dictGet_dictInsert]
  · exact dictGet_dictInsert hdcache f (mkDict f)

/-- C10 witness: the cache already holds an entry for the filename, and the
fresh dictionary overwrites it. -/
theorem pyphen_init_cache_false_overwrites_witness :
    pyphenNew [] (fun _ => tHd) [("x", tHd2)] (some "x") none 2 2 false =
      .ok (⟨2, 2, some tHd⟩, dictInsert [("x", tHd2)] "x" tHd) ∧
    dictGet (dictInsert [("x", tHd2)] "x" tHd) "x" = some tHd :=
  pyphen_init_cache_false_overwrites [] (fun _ => tHd) [("x", tHd2)] none 2 2 "x" (by decide)

/-! Trimming lemmas for the parser. -/

theorem foldl_max_zeros : ∀ (l : List Int), (∀ x ∈ l, x = 0) → l.foldl max 0 = 0 := by
  intro l
  induction l with
  | nil => intro _; rfl
  | cons a t ih =>
    intro h
    have ha : a = 0 := h a (by simp)
    have h0 : max 0 a = 0 := by simp [ha]
    simp only [List.foldl_cons, h0]
    exact ih (fun x hx => h x (by simp [hx]))

theorem valuesMax_of_all_zero (values : List DataInt) (h : ∀ v ∈ values, v.value = 0) :
    valuesMax values = 0 := by
  unfold valuesMax
  cases values with
  | nil => rfl
  | cons v rest =>
    have hv : v.value = 0 := h v (by simp)
    simp only [List.map_cons, List.headD_cons, List.foldl_cons, hv, max_self]
    refine foldl_max_zeros _ ?_
    intro x hx
    rcases List.mem_map.mp hx with ⟨w, hw, rfl⟩
    exact h w (by simp [hw])

theorem exists_nonzero_of_valuesMax_ne (values : List DataInt) (h : ¬ valuesMax values = 0) :
    ∃ v ∈ values, v.value ≠ 0 := by
  by_contra hc
  push_neg at hc
  exact h (valuesMax_of_all_zero values hc)

theorem drop_takeWhile_length {α : Type} (p : α → Bool) :
    ∀ l : List α, l.drop (l.takeWhile p).length = l.dropWhile p := by
  intro l
  induction l with
  | nil => rfl
  | cons a t ih =>
    by_cases h : p a
    · simp [List.takeWhile_cons, List.dropWhile_cons, h, ih]
    · simp [List.takeWhile_cons, List.dropWhile_cons, h]

theorem takeWhile_le_length {α : Type} (p : α → Bool) (l : List α) :
    (l.takeWhile p).length ≤ l.length :=
  (List.takeWhile_prefix p).length_le

theorem sat_of_lt_takeWhile_length {α : Type} (p : α → Bool) (l : List α) (d : α) (i : Nat)
    (hi : i < (l.takeWhile p).length) :
    p (l.getD i d) := by
  rw [List.getD_eq_getElem l d (lt_of_lt_of_le hi (takeWhile_le_length p l))]
  have hpre : l.takeWhile p <+: l := List.takeWhile_prefix p
  have heq := hpre.getElem hi
  have hmem : (l.takeWhile p)[i] ∈ l.takeWhile p := List.getElem_mem hi
  have := List.mem_takeWhile_imp hmem
  rwa [heq] at this

theorem not_sat_at_takeWhile_length {α : Type} (p : α → Bool) (l : List α) (d : α)
    (h : (l.takeWhile p).length < l.length) :
    ¬ p (l.getD (l.takeWhile p).length d) := by
  rw [List.getD_eq_getElem l d h]
  have hd : l.dropWhile p = l.drop (l.takeWhile p).length := (drop_takeWhile_length p l).symm
  have hlen : 0 < (l.dropWhile p).length := by
    rw [hd, List.length_drop]
    omega
  have hnot := List.dropWhile_get_zero_not p l hlen
  have hget : (l.dropWhile p).get ⟨0, hlen⟩ = l[(l.takeWhile p).length] := by
    simp only [List.get_eq_getElem, hd]
    rw [List.getElem_drop]
    simp
  rwa [hget] at hnot

theorem trimmedWeights_spec (values : List DataInt) (h : ¬ valuesMax values = 0) :
    trimmedWeights values ≠ [] ∧
    (∀ x, (trimmedWeights values).head? = some x → x.value ≠ 0) ∧
    (∀ x, (trimmedWeights values).getLast? = some x → x.value ≠ 0) := by
  obtain ⟨w, hw, hwv⟩ := exists_nonzero_of_valuesMax_ne values h
  have hlz_le : leadingZeros values ≤ values.length := takeWhile_le_length _ _
  have htz_le : trailingZeros values ≤ values.length := by
    have := takeWhile_le_length (fun v : DataInt => decide (v.value = 0)) values.reverse
    simpa [trailingZeros] using this
  have hlz_lt : leadingZeros values < values.length := by
    rcases lt_or_eq_of_le hlz_le with hlt | heq
    · exact hlt
    · exfalso
      have hself : values.takeWhile (fun v => decide (v.value = 0)) = values :=
        (List.takeWhile_prefix _).eq_of_length heq
      have := List.takeWhile_eq_self_iff.mp hself w hw
      simp at this
      exact hwv this
  have htz_lt : trailingZeros values < values.length := by
    rcases lt_or_eq_of_le htz_le with hlt | heq
    · exact hlt
    · exfalso
      have heq2 : (values.reverse.takeWhile (fun v : DataInt => decide (v.value = 0))).length =
          values.reverse.length := by simpa [trailingZeros] using heq
      have hself : values.reverse.takeWhile (fun v : DataInt => decide (v.value = 0)) =
          values.reverse := (List.takeWhile_prefix _).eq_of_length heq2
      have := List.takeWhile_eq_self_iff.mp hself w (List.mem_reverse.mpr hw)
      simp at this
      exact hwv this
  have hfront : ∀ i, i < leadingZeros values → (values.getD i default).value = 0 := by
    intro i hi
    have := sat_of_lt_takeWhile_length (fun v : DataInt => decide (v.value = 0)) values
      default i hi
    simpa using this
  have hnz_lz : (values.getD (leadingZeros values) default).value ≠ 0 := by
    have := not_sat_at_takeWhile_length (fun v : DataInt => decide (v.value = 0)) values
      default hlz_lt
    simpa using this
  have hrev_lt : trailingZeros values < values.reverse.length := by simpa using htz_lt
  have hnz_tz : (values.getD (values.length - 1 - trailingZeros values) default).value ≠ 0 := by
    have hnot := not_sat_at_takeWhile_length (fun v : DataInt => decide (v.value = 0))
      values.reverse default hrev_lt
    have hnot2 :
        ¬ (decide ((values.reverse.getD (trailingZeros values) default).value = 0)) = true :=
      hnot
    rw [List.getD_eq_getElem values.reverse default hrev_lt, List.getElem_reverse] at hnot2
    rw [List.getD_eq_getElem values default (by omega)]
    simpa using hnot2
  have hsum : leadingZeros values + trailingZeros values < values.length := by
    by_contra hc
    push_neg at hc
    have hidx : values.length - 1 - trailingZeros values < leadingZeros values := by omega
    exact hnz_tz (hfront _ hidx)
  have hlen_take : (values.take (values.length - trailingZeros values)).length =
      values.length - trailingZeros values := by
    rw [List.length_take]
    omega
  have hlen_trim : (trimmedWeights values).length =
      values.length - trailingZeros values - leadingZeros values := by
    unfold trimmedWeights
    rw [List.length_drop, hlen_take]
  have hpos : 0 < (trimmedWeights values).length := by
    rw [hlen_trim]
    omega
  have hne : trimmedWeights values ≠ [] := List.ne_nil_of_length_pos hpos
  have hget : ∀ i, i < (trimmedWeights values).length →
      (trimmedWeights values).getD i default = values.getD (leadingZeros values + i) default := by
    intro i hi
    rw [List.getD_eq_getElem (trimmedWeights values) default hi,
      List.getD_eq_getElem values default (by rw [hlen_trim] at hi; omega)]
    unfold trimmedWeights
    rw [List.getElem_drop, List.getElem_take]
  refine ⟨hne, ?_, ?_⟩
  · intro x hx
    rw [List.head?_eq_getElem? (trimmedWeights values)] at hx
    obtain ⟨hlt2, hxe⟩ := List.getElem?_eq_some.mp hx
    rw [← hxe, ← List.getD_eq_getElem (trimmedWeights values) default hlt2, hget 0 hlt2]
    simpa using hnz_lz
  · intro x hx
    rw [List.getLast?_eq_getElem? (trimmedWeights values)] at hx
    obtain ⟨hlt2, hxe⟩ := List.getElem?_eq_some.mp hx
    rw [← hxe, ← List.getD_eq_getElem (trimmedWeights values) default hlt2, hget _ hlt2]
    have hidx : leadingZeros values + ((trimmedWeights values).length - 1) =
        values.length - 1 - trailingZeros values := by
      rw [hlen_trim]
      omega
    simp only [hidx]
    exact hnz_tz

theorem storePattern_invariant (patterns : PatTable) (key : List Char)
    (values : List DataInt) (hp : ∀ kv ∈ patterns, trimmedInvariant kv) :
    ∀ kv ∈ storePattern patterns key values, trimmedInvariant kv := by
  unfold storePattern
  by_cases hmax : valuesMax values = 0
  · simpa [hmax] using hp
  · simp only [hmax, if_false]
    intro kv hkv
    unfold dictInsert at hkv
    rcases List.mem_cons.mp hkv with rfl | hkv
    · have hs := trimmedWeights_spec values hmax
      exact ⟨hs.1, hs.2.1, hs.2.2⟩
    · exact hp kv (List.mem_of_mem_filter hkv)

theorem processPattern_invariant {patterns out : PatTable} {line : List Char}
    (h : processPattern patterns line = .ok out)
    (hp : ∀ kv ∈ patterns, trimmedInvariant kv) :
    ∀ kv ∈ out, trimmedInvariant kv := by
  unfold processPattern at h
  dsimp only at h
  cases hf : mkFactory (parseHexSub line) with
  | error e => rw [hf] at h; cases h
  | ok pf =>
    rw [hf] at h
    obtain ⟨pat, factory⟩ := pf
    dsimp only at h
    simp only [Except.ok.injEq] at h
    subst h
    exact storePattern_invariant _ _ _ hp

theorem processLines_invariant (decode : List Char → List Nat → Option (List Char))
    (charset : List Char) :
    ∀ (ls : List (List Nat)) (patterns out : PatTable),
      processLines decode charset ls patterns = .ok out →
      (∀ kv ∈ patterns, trimmedInvariant kv) → ∀ kv ∈ out, trimmedInvariant kv := by
  intro ls
  induction ls with
  | nil =>
    intro patterns out h hp
    simp only [processLines, Except.ok.injEq] at h
    subst h
    exact hp
  | cons bs rest ih =>
    intro patterns out h hp
    unfold processLines at h
    cases hd : decode charset bs with
    | none => rw [hd] at h; cases h
    | some s =>
      rw [hd] at h
      simp only at h
      by_cases hskip : lineSkipped (stripChars s)
      · rw [if_pos hskip] at h
        exact ih patterns out h hp
      · rw [if_neg hskip] at h
        cases hpp : processPattern patterns (stripChars s) with
        | error e => rw [hpp] at h; cases h
        | ok patterns2 =>
          rw [hpp] at h
          exact ih patterns2 out h (processPattern_invariant hpp hp)

theorem hyphDictNew_invariant {decode : List Char → List Nat → Option (List Char)}
    {fileLines : List (List Nat)} {hd : HyphDict}
    (h : hyphDictNew decode fileLines = .ok hd) :
    ∀ kv ∈ hd.patterns, trimmedInvariant kv := by
  unfold hyphDictNew at h
  cases hc : charsetOf fileLines with
  | none => rw [hc] at h; cases h
  | some charset =>
    rw [hc] at h
    dsimp only at h
    cases hp : processLines decode charset fileLines.tail [] with
    | error e => rw [hp] at h; cases h
    | ok patterns =>
      rw [hp] at h
      dsimp only at h
      by_cases he : patterns.isEmpty
      · rw [if_pos he] at h; cases h
      · rw [if_neg he] at h
        simp only [Except.ok.injEq] at h
        subst h
        exact processLines_invariant decode charset fileLines.tail [] patterns hp
          (by intro kv hkv; cases hkv)

/-- C6: parsing discards all-zero pattern lines; a kept line has its leading
and trailing zero weights trimmed, the leading-trim count stored as the start
offset, and the entry stored under its key overwriting any earlier entry;
consequently every stored entry has nonempty weights beginning and ending
with a nonzero weight. -/
theorem hyphdict_parse_trim (decode : List Char → List Nat → Option (List Char))
    (fileLines : List (List Nat)) (hd : HyphDict)
    (h : hyphDictNew decode fileLines = .ok hd) :
    (∀ kv ∈ hd.patterns, trimmedInvariant kv) ∧
    (∀ (patterns : PatTable) (key : List Char) (values : List DataInt),
      valuesMax values = 0 → storePattern patterns key values = patterns) ∧
    (∀ (patterns : PatTable) (key : List Char) (values : List DataInt),
      ¬ valuesMax values = 0 →
        storePattern patterns key values =
          dictInsert patterns key (leadingZeros values, trimmedWeights values) ∧
        dictGet (storePattern patterns key values) key =
          some (leadingZeros values, trimmedWeights values)) := by
  refine ⟨hyphDictNew_invariant h, ?_, ?_⟩
  · intro patterns key values hz
    simp [storePattern, hz]
  · intro patterns key values hnz
    constructor
    · simp [storePattern, hnz]
    · simp [storePattern, hnz, dictGet_dictInsert]

/-- C6 witness: the theorem applied to the concrete two-line file whose only
pattern is `a1b`. -/
theorem hyphdict_parse_trim_witness :
    (∀ kv ∈ (HyphDict.mk [("ab".toList, (1, [⟨1, none⟩]))] 2).patterns, trimmedInvariant kv) ∧
    (∀ (patterns : PatTable) (key : List Char) (values : List DataInt),
      valuesMax values = 0 → storePattern patterns key values = patterns) ∧
    (∀ (patterns : PatTable) (key : List Char) (values : List DataInt),
      ¬ valuesMax values = 0 →
        storePattern patterns key values =
          dictInsert patterns key (leadingZeros values, trimmedWeights values) ∧
        dictGet (storePattern patterns key values) key =
          some (leadingZeros values, trimmedWeights values)) :=
  hyphdict_parse_trim asciiOnlyDecode tFile ⟨[("ab".toList, (1, [⟨1, none⟩]))], 2⟩ (by decide)

theorem processLines_ok_decodes (decode : List Char → List Nat → Option (List Char))
    (charset : List Char) :
    ∀ (ls : List (List Nat)) (patterns out : PatTable),
      processLines decode charset ls patterns = .ok out →
      ∀ l ∈ ls, decode charset l ≠ none := by
  intro ls
  induction ls with
  | nil => intro patterns out _ l hl; cases hl
  | cons bs rest ih =>
    intro patterns out h l hl
    unfold processLines at h
    cases hd : decode charset bs with
    | none => rw [hd] at h; cases h
    | some s =>
      rw [hd] at h
      dsimp only at h
      rcases List.mem_cons.mp hl with rfl | hl
      · rw [hd]; exact fun hc => Option.noConfusion hc
      · by_cases hskip : lineSkipped (stripChars s)
        · rw [if_pos hskip] at h
          exact ih patterns out h l hl
        · rw [if_neg hskip] at h
          cases hpp : processPattern patterns (stripChars s) with
          | error e => rw [hpp] at h; cases h
          | ok patterns2 =>
            rw [hpp] at h
            exact ih patterns2 out h l hl

/-- C7: parsing surfaces a `FormatError` — and returns no table at all — when
the charset line cannot be decoded as ASCII, when some pattern line fails to
decode in the declared charset, or when after all lines the pattern table is
empty; moreover a successful parse always carries a nonempty table. -/
theorem hyphdict_parse_failures (decode : List Char → List Nat → Option (List Char))
    (fileLines : List (List Nat)) :
    (charsetOf fileLines = none →
      ∃ e, hyphDictNew decode fileLines = .error e) ∧
    (∀ charset, charsetOf fileLines = some charset →
      (∃ l ∈ fileLines.tail, decode charset l = none) →
      ∃ e, hyphDictNew decode fileLines = .error e) ∧
    (∀ charset, charsetOf fileLines = some charset →
      processLines decode charset fileLines.tail [] = .ok [] →
      hyphDictNew decode fileLines = .error .emptyTableError) ∧
    (∀ hd, hyphDictNew decode fileLines = .ok hd → hd.patterns ≠ []) ∧
    (fileLines = [] → hyphDictNew decode fileLines = .error .emptyTableError) := by
  refine ⟨?_, ?_, ?_, ?_, ?_⟩
  · intro hc
    refine ⟨.charsetError, ?_⟩
    unfold hyphDictNew
    rw [hc]
  · intro charset hc hfail
    obtain ⟨l, hl, hld⟩ := hfail
    unfold hyphDictNew
    rw [hc]
    dsimp only
    cases hp : processLines decode charset fileLines.tail [] with
    | error e => exact ⟨e, rfl⟩
    | ok patterns =>
      exact absurd hld (processLines_ok_decodes decode charset fileLines.tail [] patterns hp l hl)
  · intro charset hc hp
    unfold hyphDictNew
    rw [hc]
    dsimp only
    rw [hp]
    rfl
  · intro hd h
    unfold hyphDictNew at h
    cases hc : charsetOf fileLines with
    | none => rw [hc] at h; cases h
    | some charset =>
      rw [hc] at h
      dsimp only at h
      cases hp : processLines decode charset fileLines.tail [] with
      | error e => rw [hp] at h; cases h
      | ok patterns =>
        rw [hp] at h
        dsimp only at h
        by_cases he : patterns.isEmpty
        · rw [if_pos he] at h; cases h
        · rw [if_neg he] at h
          simp only [Except.ok.injEq] at h
          subst h
          simpa using he
  · intro h
    subst h
    rfl

/-- C7 witness: a file whose second line cannot be decoded (with a decoder
that rejects non-ASCII bytes) makes parsing fail. -/
theorem hyphdict_parse_failures_witness :
    ∃ e, hyphDictNew asciiOnlyDecode tBadFile = .error e :=
  (hyphdict_parse_failures asciiOnlyDecode tBadFile).2.1 "ISO8859-1".toList (by decide)
    ⟨[200], by decide, by decide⟩

/-! Lemmas about Python list insertion at nonnegative indices. -/

theorem flatten_map_singleton {α : Type} : ∀ w : List α, (w.map (fun c => [c])).flatten = w := by
  intro w
  induction w with
  | nil => rfl
  | cons c rest ih => simp [ih]

theorem foldr_ext_mem {α β : Type} (f g : α → β → β) (b : β) :
    ∀ l : List α, (∀ a ∈ l, ∀ acc, f a acc = g a acc) → l.foldr f b = l.foldr g b := by
  intro l
  induction l with
  | nil => intro _; rfl
  | cons a rest ih =>
    intro h
    simp only [List.foldr_cons]
    rw [ih (fun x hx acc => h x (by simp [hx]) acc), h a (by simp)]

theorem pyInsert_nat {α : Type} (l : List α) (q : Nat) (x : α) :
    pyInsert l ((q : Nat) : Int) x =
      l.take (min q l.length) ++ x :: l.drop (min q l.length) := by
  unfold pyInsert pyIdx
  have h1 : ¬ ((q : Int) < 0) := by omega
  rw [if_neg h1]
  have h2 : (min (q : Int) (l.length : Int)).toNat = min q l.length := by omega
  rw [h2]

theorem pyInsert_zero {α : Type} (l : List α) (x : α) :
    pyInsert l ((0 : Nat) : Int) x = x :: l := by
  rw [pyInsert_nat]
  simp

theorem pyInsert_append {α : Type} (A R : List α) (q : Nat) (x : α)
    (h : A.length ≤ q) :
    pyInsert (A ++ R) ((q : Nat) : Int) x =
      A ++ pyInsert R ((q - A.length : Nat) : Int) x := by
  rw [pyInsert_nat, pyInsert_nat]
  have hlen : (A ++ R).length = A.length + R.length := by simp
  rw [hlen]
  have hm : min q (A.length + R.length) = A.length + min (q - A.length) R.length := by omega
  rw [hm]
  rw [List.take_append_eq_append_take, List.drop_append_eq_append_drop]
  have ht : A.take (A.length + min (q - A.length) R.length) = A :=
    List.take_of_length_le (by omega)
  have hd : A.drop (A.length + min (q - A.length) R.length) = [] :=
    List.drop_eq_nil_of_le (by omega)
  rw [ht, hd]
  have hn : A.length + min (q - A.length) R.length - A.length = min (q - A.length) R.length := by
    omega
  rw [hn]
  simp

theorem insert_foldr_split (hyphen : List Char) :
    ∀ (qs : List Nat) (l : List (List Char)) (p : Nat), (∀ q ∈ qs, p ≤ q) → p ≤ l.length →
      qs.foldr (fun q acc => pyInsert acc ((q : Nat) : Int) hyphen) l =
        l.take p ++
          (qs.map (fun q => q - p)).foldr
            (fun q acc => pyInsert acc ((q : Nat) : Int) hyphen) (l.drop p) := by
  intro qs
  induction qs with
  | nil =>
    intro l p _ hp
    simp
  | cons q qs ih =>
    intro l p hq hp
    simp only [List.foldr_cons, List.map_cons]
    rw [ih l p (fun x hx => hq x (by simp [hx])) hp]
    have hA : (l.take p).length = p := by
      rw [List.length_take]
      omega
    rw [pyInsert_append _ _ q hyphen (by rw [hA]; exact hq q (by simp))]
    rw [hA]

theorem specFragments_shift (word : List Char) (p : Nat) :
    ∀ (qs : List Nat) (prev : Nat), p ≤ prev → (∀ q ∈ qs, p ≤ q) →
      specFragments word prev qs =
        specFragments (word.drop p) (prev - p) (qs.map (fun q => q - p)) := by
  intro qs
  induction qs with
  | nil =>
    intro prev hp _
    simp only [specFragments, List.map_nil]
    rw [List.drop_drop]
    have h1 : p + (prev - p) = prev := by omega
    rw [h1]
  | cons q qs ih =>
    intro prev hp hq
    simp only [specFragments, List.map_cons]
    have hpq : p ≤ q := hq q (by simp)
    congr 1
    · rw [List.drop_drop]
      have h1 : p + (prev - p) = prev := by omega
      have h2 : q - p - (prev - p) = q - prev := by omega
      rw [h1, h2]
    · exact ih q hpq (fun x hx => hq x (by simp [hx]))

theorem specFragments_ne_nil (word : List Char) (prev : Nat) (ps : List Nat) :
    specFragments word prev ps ≠ [] := by
  cases ps <;> simp [specFragments]

theorem specInserted_cons (word hyphen : List Char) (p : Nat) (ps : List Nat)
    (hps : ∀ q ∈ ps, p ≤ q) :
    specInserted word hyphen (p :: ps) =
      word.take p ++ hyphen ++
        specInserted (word.drop p) hyphen (ps.map (fun q => q - p)) := by
  unfold specInserted
  have h1 : specFragments word 0 (p :: ps) = word.take p :: specFragments word p ps := by
    simp [specFragments]
  rw [h1]
  have h2 : specFragments word p ps =
      specFragments (word.drop p) 0 (ps.map (fun q => q - p)) := by
    have := specFragments_shift word p ps p le_rfl hps
    simpa using this
  rw [h2]
  obtain ⟨f, fs, hf⟩ :=
    List.exists_cons_of_ne_nil (specFragments_ne_nil (word.drop p) 0 (ps.map (fun q => q - p)))
  rw [hf]
  simp [joinSep]

theorem insert_foldr_eq_specInserted (hyphen : List Char) :
    ∀ (n : Nat) (ps : List Nat) (word : List Char), ps.length = n →
      List.Pairwise (fun a b => a < b) ps → (∀ p ∈ ps, p ≤ word.length) →
      (ps.foldr (fun p acc => pyInsert acc ((p : Nat) : Int) hyphen)
          (word.map (fun c => [c]))).flatten = specInserted word hyphen ps := by
  intro n
  induction n with
  | zero =>
    intro ps word hlen _ _
    have hnil : ps = [] := List.eq_nil_of_length_eq_zero hlen
    subst hnil
    simp [specInserted, specFragments, joinSep, flatten_map_singleton]
  | succ n ih =>
    intro ps word hlen hpw hb
    cases ps with
    | nil => simp at hlen
    | cons p ps =>
      have hge : ∀ q ∈ ps, p ≤ q := by
        intro q hq
        exact le_of_lt ((List.pairwise_cons.mp hpw).1 q hq)
      have hple : p ≤ word.length := hb p (by simp)
      simp only [List.foldr_cons]
      rw [insert_foldr_split hyphen ps (word.map (fun c => [c])) p hge
        (by rw [List.length_map]; exact hple)]
      have hA : ((word.map (fun c => [c])).take p).length = p := by
        rw [List.length_take, List.length_map]
        omega
      rw [pyInsert_append _ _ p hyphen (le_of_eq hA)]
      rw [hA]
      have h0 : p - p = 0 := by omega
      rw [h0, pyInsert_zero]
      have htake : (word.map (fun c => [c])).take p = (word.take p).map (fun c => [c]) :=
        (List.map_take _ _ _).symm
      have hdrop : (word.map (fun c => [c])).drop p = (word.drop p).map (fun c => [c]) :=
        (List.map_drop _ _ _).symm
      rw [htake, hdrop]
      rw [List.flatten_append, List.flatten_cons]
      rw [flatten_map_singleton]
      have hih := ih (ps.map (fun q => q - p)) (word.drop p)
        (by rw [List.length_map]; simpa using hlen)
        (by
          refine List.pairwise_map.mpr ?_
          refine List.Pairwise.imp_of_mem ?_ hpw.tail
          intro a b ha hb2 hab
          have := hge a ha
          omega)
        (by
          intro q hq
          rcases List.mem_map.mp hq with ⟨r, hr, rfl⟩
          have := hb r (by simp [hr])
          rw [List.length_drop]
          omega)
      rw [hih]
      rw [specInserted_cons word hyphen p ps hge]
      simp [List.append_assoc]

theorem splitOnChar_no_sep (sep : Char) :
    ∀ w : List Char, sep ∉ w → splitOnChar sep w = [w] := by
  intro w
  induction w with
  | nil => intro _; rfl
  | cons c rest ih =>
    intro h
    have hc : ¬ c = sep := fun hcs => h (by simp [hcs])
    have hr : sep ∉ rest := fun hm => h (by simp [hm])
    simp only [splitOnChar, if_neg hc, ih hr]

theorem splitOnChar_append_cons (sep : Char) :
    ∀ (A B : List Char), sep ∉ A →
      splitOnChar sep (A ++ sep :: B) = A :: splitOnChar sep B := by
  intro A
  induction A with
  | nil =>
    intro B _
    simp [splitOnChar]
  | cons c A ih =>
    intro B h
    have hc : ¬ c = sep := fun hcs => h (by simp [hcs])
    have hr : sep ∉ A := fun hm => h (by simp [hm])
    simp only [List.cons_append, splitOnChar, if_neg hc, List.append_eq]
    rw [ih B hr]

theorem splitOnChar_specInserted :
    ∀ (n : Nat) (ps : List Nat) (word : List Char), ps.length = n →
      List.Pairwise (fun a b => a < b) ps → '-' ∉ word →
      (splitOnChar '-' (specInserted word [ '-' ] ps)).flatten = word := by
  intro n
  induction n with
  | zero =>
    intro ps word hlen _ hw
    have hnil : ps = [] := List.eq_nil_of_length_eq_zero hlen
    subst hnil
    have h1 : specInserted word [ '-' ] [] = word := by
      simp [specInserted, specFragments, joinSep]
    rw [h1, splitOnChar_no_sep '-' word hw]
    simp
  | succ n ih =>
    intro ps word hlen hpw hw
    cases ps with
    | nil => simp at hlen
    | cons p ps =>
      have hge : ∀ q ∈ ps, p ≤ q := by
        intro q hq
        exact le_of_lt ((List.pairwise_cons.mp hpw).1 q hq)
      rw [specInserted_cons word [ '-' ] p ps hge]
      have hsh : word.take p ++ [ '-' ] ++
          specInserted (word.drop p) [ '-' ] (ps.map (fun q => q - p)) =
          word.take p ++ '-' :: specInserted (word.drop p) [ '-' ] (ps.map (fun q => q - p)) := by
        simp
      rw [hsh]
      rw [splitOnChar_append_cons '-' _ _ (fun hm => hw (List.mem_of_mem_take hm))]
      rw [List.flatten_cons]
      rw [ih (ps.map (fun q => q - p)) (word.drop p)
        (by rw [List.length_map]; simpa using hlen)
        (by
          refine List.pairwise_map.mpr ?_
          refine List.Pairwise.imp_of_mem ?_ hpw.tail
          intro a b ha hb2 hab
          have := hge a ha
          omega)
        (fun hm => hw (List.mem_of_mem_drop hm))]
      exact List.take_append_drop p word

/-- C3 counterexample: for a word that already contains the hyphen character
(here `"x-y"`, which has no break positions, all vacuously plain), splitting
`inserted(word, "-")` on `"-"` does not reconstruct the original word, so the
round-trip half of the claim fails as stated. -/
theorem pyphen_inserted_roundtrip_cex :
    (∀ p ∈ Pyphen.positions ⟨2, 2, tHd⟩ "x-y".toList, p.data = none) ∧
    ¬ ((splitOnChar '-' (Pyphen.inserted ⟨2, 2, tHd⟩ "x-y".toList [ '-' ])).flatten =
        "x-y".toList) := by decide

/-- C3 (amended: the word must not already contain the hyphen character, and
the margins are nonnegative as the spec's construction contract requires):
`inserted(word, "-")` equals the word with `"-"` inserted simultaneously at
each break position — rightmost-first processing causes no index shifts — and
splitting the result on `"-"` yields fragments concatenating back to the
original word. -/
theorem pyphen_inserted_roundtrip (P : Pyphen) (word : List Char)
    (hl : 0 ≤ P.left) (hr : 0 ≤ P.right)
    (hdata : ∀ p ∈ P.positions word, p.data = none) (hw : '-' ∉ word) :
    P.inserted word [ '-' ] =
      specInserted word [ '-' ] ((P.positions word).map (fun p => p.value.toNat)) ∧
    (splitOnChar '-' (P.inserted word [ '-' ])).flatten = word := by
  have hbounds : ∀ p ∈ P.positions word, 0 ≤ p.value ∧ p.value ≤ (word.length : Int) := by
    intro p hp
    have h2 := ((mem_positions P word p).mp hp).2
    omega
  have hpair := positions_pairwise P word
  have hpairN : List.Pairwise (fun a b => a < b)
      ((P.positions word).map (fun p => p.value.toNat)) := by
    refine List.pairwise_map.mpr ?_
    refine List.Pairwise.imp_of_mem ?_ hpair
    intro a b ha hb hab
    have h1 := hbounds a ha
    have h2 := hbounds b hb
    omega
  have hbN : ∀ q ∈ (P.positions word).map (fun p => p.value.toNat), q ≤ word.length := by
    intro q hq
    rcases List.mem_map.mp hq with ⟨r, hr2, rfl⟩
    have := hbounds r hr2
    omega
  have heq : P.inserted word [ '-' ] =
      specInserted word [ '-' ] ((P.positions word).map (fun p => p.value.toNat)) := by
    unfold Pyphen.inserted
    rw [List.foldl_reverse]
    have hstep : ∀ p ∈ P.positions word, ∀ acc : List (List Char),
        insertedStep word [ '-' ] acc p =
          pyInsert acc ((p.value.toNat : Nat) : Int) [ '-' ] := by
      intro p hp acc
      have hd := hdata p hp
      unfold insertedStep
      rw [hd]
      have h0 := (hbounds p hp).1
      rw [Int.toNat_of_nonneg h0]
    rw [foldr_ext_mem _ (fun p acc => pyInsert acc ((p.value.toNat : Nat) : Int) [ '-' ]) _ _
      (fun a ha acc => hstep a ha acc)]
    have hfm : ((P.positions word).map (fun p => p.value.toNat)).foldr
        (fun q acc => pyInsert acc ((q : Nat) : Int) [ '-' ]) (word.map (fun c => [c])) =
        (P.positions word).foldr
          (fun p acc => pyInsert acc ((p.value.toNat : Nat) : Int) [ '-' ])
          (word.map (fun c => [c])) := by
      rw [List.foldr_map]
    rw [← hfm]
    exact insert_foldr_eq_specInserted [ '-' ] _ _ word rfl hpairN hbN
  refine ⟨heq, ?_⟩
  rw [heq]
  exact splitOnChar_specInserted _ _ word rfl hpairN hw

/-- C3 witness: the amended theorem applied to the concrete table and the word
`"cab"`, which has the single break position 2. -/
theorem pyphen_inserted_roundtrip_witness :
    Pyphen.inserted ⟨1, 1, tHd⟩ "cab".toList [ '-' ] =
      specInserted "cab".toList [ '-' ]
        ((Pyphen.positions ⟨1, 1, tHd⟩ "cab".toList).map (fun p => p.value.toNat)) ∧
    (splitOnChar '-' (Pyphen.inserted ⟨1, 1, tHd⟩ "cab".toList [ '-' ])).flatten =
      "cab".toList :=
  pyphen_inserted_roundtrip ⟨1, 1, tHd⟩ "cab".toList (by decide) (by decide) (by decide)
    (by decide)

/-! Lemmas for the overlay scan (claim C1). -/

theorem overlayVals_length : ∀ (refs vals : List DataInt),
    (overlayVals refs vals).length = refs.length := by
  intro refs
  induction refs with
  | nil => intro vals; cases vals <;> rfl
  | cons r rest ih =>
    intro vals
    cases vals with
    | nil => rfl
    | cons v vs => simp [overlayVals, ih vs]

theorem overlayAt_length (refs : List DataInt) (pos : Nat) (vals : List DataInt) :
    (overlayAt refs pos vals).length = refs.length := by
  unfold overlayAt
  rw [List.length_append, List.length_take, overlayVals_length, List.length_drop]
  omega

theorem scanStep_length (patterns : PatTable) (pointed : List Char) (refs : List DataInt)
    (ij : Nat × Nat) : (scanStep patterns pointed refs ij).length = refs.length := by
  unfold scanStep
  cases dictGet patterns ((pointed.drop ij.1).take (ij.2 - ij.1)) with
  | none => rfl
  | some p => exact overlayAt_length refs (ij.1 + p.1) p.2

theorem scanAll_length (patterns : PatTable) (pointed : List Char) :
    ∀ (ijs : List (Nat × Nat)) (refs : List DataInt),
      (scanAll patterns pointed ijs refs).length = refs.length := by
  intro ijs
  induction ijs with
  | nil => intro refs; rfl
  | cons ij rest ih =>
    intro refs
    have h1 : scanAll patterns pointed (ij :: rest) refs =
        scanAll patterns pointed rest (scanStep patterns pointed refs ij) := rfl
    rw [h1, ih, scanStep_length]

theorem overlayVals_getD : ∀ (refs vals : List DataInt) (m : Nat), m < refs.length →
    (overlayVals refs vals).getD m default =
      if m < vals.length then pyMaxD (vals.getD m default) (refs.getD m default)
      else refs.getD m default := by
  intro refs
  induction refs with
  | nil => intro vals m hm; simp at hm
  | cons r rest ih =>
    intro vals m hm
    cases vals with
    | nil => simp [overlayVals]
    | cons v vs =>
      cases m with
      | zero => simp [overlayVals]
      | succ k =>
        simp only [overlayVals, List.getD_cons_succ, List.length_cons]
        rw [ih vs k (by simpa using hm)]
        simp [Nat.succ_lt_succ_iff]

theorem overlayAt_getD (refs : List DataInt) (pos : Nat) (vals : List DataInt) (m : Nat)
    (hm : m < refs.length) :
    (overlayAt refs pos vals).getD m default =
      if pos ≤ m ∧ m - pos < vals.length then
        pyMaxD (vals.getD (m - pos) default) (refs.getD m default)
      else refs.getD m default := by
  unfold overlayAt
  by_cases hlt : m < (refs.take pos).length
  · rw [List.getD_append _ _ _ _ (by omega)]
    have hmp : m < pos := by
      rw [List.length_take] at hlt
      omega
    rw [if_neg (by omega)]
    rw [List.getD_eq_getElem _ _ (by rw [List.length_take]; omega)]
    rw [List.getElem_take]
    rw [List.getD_eq_getElem _ _ hm]
  · have hlen : (refs.take pos).length = min pos refs.length := List.length_take _ _
    have hmp : pos ≤ m := by omega
    rw [List.getD_append_right _ _ _ _ (by omega)]
    have hidx : m - (refs.take pos).length = m - pos := by omega
    rw [hidx]
    rw [overlayVals_getD (refs.drop pos) vals (m - pos) (by rw [List.length_drop]; omega)]
    have hdget : (refs.drop pos).getD (m - pos) default = refs.getD m default := by
      rw [List.getD_eq_getElem _ _ (by rw [List.length_drop]; omega)]
      rw [List.getElem_drop]
      rw [List.getD_eq_getElem _ _ (by omega)]
      congr 1
      omega
    rw [hdget]
    by_cases hv : m - pos < vals.length
    · rw [if_pos hv, if_pos ⟨hmp, hv⟩]
    · rw [if_neg hv, if_neg (by omega)]

theorem pyMaxD_value (a b : DataInt) : (pyMaxD a b).value = max a.value b.value := by
  unfold pyMaxD
  split <;> omega

theorem scanStep_getD_value (patterns : PatTable) (pointed : List Char)
    (refs : List DataInt) (ij : Nat × Nat) (m : Nat) (hm : m < refs.length) :
    ((scanStep patterns pointed refs ij).getD m default).value =
      match contribAt patterns pointed ij m with
      | some c => max c ((refs.getD m default).value)
      | none => (refs.getD m default).value := by
  unfold scanStep contribAt
  cases hg : dictGet patterns ((pointed.drop ij.1).take (ij.2 - ij.1)) with
  | none => rfl
  | some p =>
    obtain ⟨off, vals⟩ := p
    dsimp only
    rw [overlayAt_getD refs (ij.1 + off) vals m hm]
    by_cases hc : ij.1 + off ≤ m ∧ m - (ij.1 + off) < vals.length
    · rw [if_pos hc, if_pos hc, pyMaxD_value]
    · rw [if_neg hc, if_neg hc]

theorem scanAll_getD_value (patterns : PatTable) (pointed : List Char) :
    ∀ (ijs : List (Nat × Nat)) (refs : List DataInt) (m : Nat), m < refs.length →
      ((scanAll patterns pointed ijs refs).getD m default).value =
        (ijs.filterMap (fun ij => contribAt patterns pointed ij m)).foldl
          (fun a c => max c a) ((refs.getD m default).value) := by
  intro ijs
  induction ijs with
  | nil => intro refs m hm; rfl
  | cons ij rest ih =>
    intro refs m hm
    have h1 : scanAll patterns pointed (ij :: rest) refs =
        scanAll patterns pointed rest (scanStep patterns pointed refs ij) := rfl
    rw [h1]
    rw [ih (scanStep patterns pointed refs ij) m (by rw [scanStep_length]; exact hm)]
    rw [scanStep_getD_value patterns pointed refs ij m hm]
    simp only [List.filterMap_cons]
    cases hc : contribAt patterns pointed ij m with
    | none => rfl
    | some c => simp

theorem scanAll_perm_map_value (patterns : PatTable) (pointed : List Char)
    {ijs ijs2 : List (Nat × Nat)} (hperm : ijs.Perm ijs2) (refs : List DataInt) :
    (scanAll patterns pointed ijs refs).map (fun v => v.value) =
      (scanAll patterns pointed ijs2 refs).map (fun v => v.value) := by
  apply List.ext_getElem
  · simp [scanAll_length]
  · intro i h1 h2
    rw [List.getElem_map, List.getElem_map]
    have hi : i < refs.length := by
      have := scanAll_length patterns pointed ijs refs
      simp only [List.length_map] at h1
      omega
    have hb1 : i < (scanAll patterns pointed ijs refs).length := by
      simpa only [List.length_map] using h1
    have hb2 : i < (scanAll patterns pointed ijs2 refs).length := by
      simpa only [List.length_map] using h2
    rw [← List.getD_eq_getElem (scanAll patterns pointed ijs refs) default hb1,
      ← List.getD_eq_getElem (scanAll patterns pointed ijs2 refs) default hb2]
    rw [scanAll_getD_value patterns pointed ijs refs i hi]
    rw [scanAll_getD_value patterns pointed ijs2 refs i hi]
    haveI : RightCommutative (fun (a c : Int) => max c a) := by
      refine ⟨?_⟩
      intro b a1 a2
      exact max_left_comm a2 a1 b
    exact (hperm.filterMap (fun ij => contribAt patterns pointed ij i)).foldl_eq _

theorem collectPointsAux_map_value :
    ∀ (l1 l2 : List DataInt) (i : Nat),
      l1.map (fun v => v.value) = l2.map (fun v => v.value) →
      (collectPointsAux i l1).map (fun v => v.value) =
        (collectPointsAux i l2).map (fun v => v.value) := by
  intro l1
  induction l1 with
  | nil =>
    intro l2 i h
    cases l2 with
    | nil => rfl
    | cons s rest2 => simp at h
  | cons r rest ih =>
    intro l2 i h
    cases l2 with
    | nil => simp at h
    | cons s rest2 =>
      simp only [List.map_cons, List.cons.injEq] at h
      obtain ⟨hv, hrest⟩ := h
      simp only [collectPointsAux, List.map_append]
      rw [ih rest2 (i + 1) hrest]
      congr 1
      by_cases h2 : s.value % 2 = 0 <;> simp [h2, hv]

/-- C1: in the position-finder overlay, the value surviving at each
accumulator position is the elementwise maximum of the initial value and all
weights that matching patterns write there (not an overwrite); consequently
the numeric accumulator, and with it the sequence of emitted break-position
indices, is the same for any permutation of the scan order. -/
theorem overlay_max_combination (patterns : PatTable) (pointed : List Char)
    (refs : List DataInt) (ijs ijs2 : List (Nat × Nat)) (m : Nat)
    (hperm : ijs.Perm ijs2) (hm : m < refs.length) :
    ((scanAll patterns pointed ijs refs).getD m default).value =
      (ijs.filterMap (fun ij => contribAt patterns pointed ij m)).foldl
        (fun a c => max c a) ((refs.getD m default).value) ∧
    (scanAll patterns pointed ijs refs).map (fun v => v.value) =
      (scanAll patterns pointed ijs2 refs).map (fun v => v.value) ∧
    (collectPointsAux 0 (scanAll patterns pointed ijs refs)).map (fun v => v.value) =
      (collectPointsAux 0 (scanAll patterns pointed ijs2 refs)).map (fun v => v.value) := by
  refine ⟨scanAll_getD_value patterns pointed ijs refs m hm, ?_, ?_⟩
  · exact scanAll_perm_map_value patterns pointed hperm refs
  · exact collectPointsAux_map_value _ _ 0 (scanAll_perm_map_value patterns pointed hperm refs)

/-- C1 witness: two overlapping patterns (`a1b` and `3b`) both write to
accumulator position 2; the survivor is the maximum, and reversing the scan
order leaves both the numeric accumulator and the break indices unchanged. -/
theorem overlay_max_combination_witness :
    ((scanAll tPatterns tPointed tIJs tRefs).getD 2 default).value =
      (tIJs.filterMap (fun ij => contribAt tPatterns tPointed ij 2)).foldl
        (fun a c => max c a) ((tRefs.getD 2 default).value) ∧
    (scanAll tPatterns tPointed tIJs tRefs).map (fun v => v.value) =
      (scanAll tPatterns tPointed tIJs.reverse tRefs).map (fun v => v.value) ∧
    (collectPointsAux 0 (scanAll tPatterns tPointed tIJs tRefs)).map (fun v => v.value) =
      (collectPointsAux 0 (scanAll tPatterns tPointed tIJs.reverse tRefs)).map
        (fun v => v.value) :=
  overlay_max_combination tPatterns tPointed tRefs tIJs tIJs.reverse 2 (by decide) (by decide)
